import Mathlib

/-!
MaixPy `uos` module (ports/k210-standalone/mpy-mod/uos/moduos.c).

A shallow embedding of the SPIFFS-backed virtual-filesystem adapter:
the current-directory cursor (`current_dir`, `API_FS_ChangeDir`,
`API_FS_FullPath`) and the `mp_vfs_*` entry points.

C memory objects are lists of bytes (`Nat`), a C string is the run of
non-zero bytes at the start of an object, and an access outside the object
is undefined behaviour, modelled as `none`.
-/

namespace MaixPy

/-! ## C strings over byte buffers -/

/-- The C string held at the start of a memory object: the bytes before the first NUL. -/
def cstr : List Nat → List Nat
  | [] => []
  | b :: bs => if b = 0 then [] else b :: cstr bs

/-- C `strlen`: the number of bytes before the first NUL. Scanning past the end of the
object (no NUL inside it) is undefined behaviour. -/
def strlen (buf : List Nat) : Option Nat :=
  if 0 ∈ buf then some (cstr buf).length else none

/-- A block store `buf[i .. i + |bs|) = bs`. A store that leaves the object is undefined
behaviour. -/
def store (buf : List Nat) (i : Nat) (bs : List Nat) : Option (List Nat) :=
  if i + bs.length ≤ buf.length then some (buf.take i ++ bs ++ buf.drop (i + bs.length))
  else none

/-- Conversion of a C `int` expression to `size_t` (64 bit on the K210, an RV64 core). -/
def toSizeT (i : Int) : Nat := (i % 18446744073709551616).toNat

/-- C `strcpy(dst, src)`. -/
def strcpy (dst src : List Nat) : Option (List Nat) :=
  if 0 ∈ src then store dst 0 (cstr src ++ [0]) else none

/-- C `strcat(dst, src)`. -/
def strcat (dst src : List Nat) : Option (List Nat) :=
  match strlen dst with
  | none => none
  | some l => if 0 ∈ src then store dst l (cstr src ++ [0]) else none

/-- C `strncpy(dst, src, n)`: copies at most `n` bytes of the string `src`, and pads with
NUL up to `n` bytes when `src` is shorter; no NUL is written when `src` has `n` or more
characters. -/
def strncpy (dst src : List Nat) (n : Nat) : Option (List Nat) :=
  if src.length < n ∧ 0 ∉ src then none
  else
    let s := cstr (src.take n)
    store dst 0 (s ++ List.replicate (n - s.length) 0)

/-- C `strncat(dst, src, n)`: appends at most `n` bytes of the string `src` to the string
in `dst`, then a NUL. -/
def strncat (dst src : List Nat) (n : Nat) : Option (List Nat) :=
  match strlen dst with
  | none => none
  | some l =>
    if src.length < n ∧ 0 ∉ src then none
    else store dst l (cstr (src.take n) ++ [0])

/-- C `strcmp` on the strings held by two objects. -/
def strcmp : List Nat → List Nat → Int
  | [], [] => 0
  | [], b :: _ => if b = 0 then 0 else -(b : Int)
  | a :: _, [] => if a = 0 then 0 else (a : Int)
  | a :: as, b :: bs =>
    if a = b then (if a = 0 then 0 else strcmp as bs) else (a : Int) - (b : Int)

/-- C `strncmp(a, b, n)`. -/
def strncmp : List Nat → List Nat → Nat → Int
  | _, _, 0 => 0
  | [], [], _ + 1 => 0
  | [], b :: _, _ + 1 => if b = 0 then 0 else -(b : Int)
  | a :: _, [], _ + 1 => if a = 0 then 0 else (a : Int)
  | a :: as, b :: bs, n + 1 =>
    if a = b then (if a = 0 then 0 else strncmp as bs n) else (a : Int) - (b : Int)

/-- The bytes of a string literal followed by its terminating NUL. -/
def lit (s : String) : List Nat := s.toList.map Char.toNat ++ [0]

/-! ## The current-directory cursor -/

/-- The initial contents `{ "/" }` of `char current_dir[SPIFFS_OBJ_NAME_LEN + 1]`:
the string "/" and zeros to the end of the array. `N` is `SPIFFS_OBJ_NAME_LEN`. -/
def current_dir_init (N : Nat) : List Nat := 47 :: List.replicate N 0

/-- The function `API_FS_InitDir`: `strcpy(current_dir, "/")`. -/
def API_FS_InitDir (current_dir : List Nat) : Option (List Nat) :=
  strcpy current_dir (lit "/")

/-- The tail of `API_FS_ChangeDir`, "append '/' if it is missing":
`len = strlen(current_dir); if (len < 1 || current_dir[len - 1] != '/')` then
`current_dir[len] = '/'; current_dir[len + 1] = 0`. -/
def append_slash_if_missing (current_dir : List Nat) : Option (List Nat) :=
  match strlen current_dir with
  | none => none
  | some len =>
    if len < 1 ∨ current_dir.get? (len - 1) ≠ some 47 then
      match store current_dir len [47] with
      | none => none
      | some b3 => store b3 (len + 1) [0]
    else some current_dir

/-- The function `API_FS_ChangeDir(path)` on the array `current_dir` of `N + 1` bytes,
`N = SPIFFS_OBJ_NAME_LEN`. Returns the new contents of the array, or `none` when the call
reads or writes outside an object. -/
def API_FS_ChangeDir (N : Nat) (current_dir path : List Nat) : Option (List Nat) :=
  let copied :=
    if path.head? = some 47 then
      strncpy current_dir path (toSizeT ((N : Int) - 1))
    else
      match strlen current_dir with
      | none => none
      | some l => strncat current_dir path (toSizeT ((N : Int) - (l : Int) - 1))
  match copied with
  | none => none
  | some b1 =>
    match store b1 N [0] with
    | none => none
    | some b2 => append_slash_if_missing b2

/-- A run of `API_FS_ChangeDir` calls from a given state of the array. -/
def chdirs (N : Nat) : List Nat → List (List Nat) → Option (List Nat)
  | buf, [] => some buf
  | buf, p :: ps =>
    match API_FS_ChangeDir N buf p with
    | none => none
    | some buf1 => chdirs N buf1 ps

/-- C `malloc(size)`: `none` is the NULL result, otherwise a block of `size` bytes of
unspecified content given by `junk`. -/
def malloc (junk : Option (Nat → Nat)) (size : Nat) : Option (List Nat) :=
  junk.map (fun f => (List.range size).map f)

/-- The function `API_FS_FullPath(path_in)`. The outer `Option` is `none` for undefined behaviour, the
inner one is `none` for the NULL result of a failed allocation. -/
def API_FS_FullPath (junk : Option (Nat → Nat)) (current_dir path_in : List Nat) :
    Option (Option (List Nat)) :=
  match strlen current_dir, strlen path_in with
  | some lc, some lp =>
    match malloc junk (lc + lp + 2) with
    | none => some none
    | some path =>
      if path_in.head? ≠ some 47 then
        match strcpy path current_dir with
        | none => none
        | some p1 => (strcat p1 path_in).map some
      else (strcpy path path_in).map some
  | _, _ => none


/-! ## Results of the `mp_vfs_*` entry points -/

/-- How a call of an entry point ends: it returns a value, it raises `OSError(errno)`
through `mp_raise_OSError`, or its behaviour is undefined (NULL or out-of-object access). -/
inductive Res (α : Type) where
  | ret (v : α)
  | raise (errno : Nat)
  | undefined
  deriving DecidableEq, Repr

/-- The constant `MP_EIO` of py/mperrno.h. -/
def MP_EIO : Nat := 5

/-- The constant `MP_EINVAL` of py/mperrno.h. -/
def MP_EINVAL : Nat := 22

/-! ## remove and stat -/

/-- The entry point `mp_vfs_remove(path_in)`. `SPIFFS_remove` is the result code of the driver's delete
for a name. The first component lists the names handed to the driver's delete. -/
def mp_vfs_remove (junk : Option (Nat → Nat)) (SPIFFS_remove : List Nat → Int)
    (current_dir path_in : List Nat) : List (List Nat) × Res Unit :=
  match API_FS_FullPath junk current_dir path_in with
  | none => ([], Res.undefined)
  | some none => ([], Res.undefined)
  | some (some path) =>
    if strcmp path (lit "/") = 0 ∨ strcmp path (lit "/t") = 0 then
      ([], Res.raise MP_EINVAL)
    else
      let ret := SPIFFS_remove (cstr path)
      if ret ≠ 0 then ([cstr path], Res.raise MP_EIO)
      else ([cstr path], Res.ret ())

/-- The fields of the driver's `spiffs_stat` that the adapter reads. -/
structure spiffs_stat where
  obj_id : Nat
  size : Nat
  type : Nat
  deriving DecidableEq, Repr

/-- The tuple built at the end of `mp_vfs_stat`: ten slots, slot 0 the mode, slot 1 the
object id, slots 2 to 9 zeroed by the loop, then slot 6 the size. -/
def stat_tuple (stat : spiffs_stat) : List Nat :=
  let t := List.replicate 10 0
  let t := t.set 0 (if stat.type = 2 then 0o040000 else 0o100777)
  let t := t.set 1 stat.obj_id
  let t := (List.range' 2 8).foldl (fun t i => t.set i 0) t
  t.set 6 stat.size

/-- The entry point `mp_vfs_stat(path_in)`. `SPIFFS_stat name st` is the driver's stat: its result code and
the contents of the caller's record after the call; `uninit` is the unspecified initial
content of the local `stat`. The first component lists the names handed to the driver. -/
def mp_vfs_stat (junk : Option (Nat → Nat))
    (SPIFFS_stat : List Nat → spiffs_stat → Int × spiffs_stat) (uninit : spiffs_stat)
    (current_dir path_in : List Nat) : List (List Nat) × Res (List Nat) :=
  match API_FS_FullPath junk current_dir path_in with
  | none => ([], Res.undefined)
  | some none => ([], Res.raise MP_EIO)
  | some (some path) =>
    let ret : Int := 0
    let r : List (List Nat) × spiffs_stat :=
      if strcmp path (lit "/") = 0 then ([], { type := 2, size := 0, obj_id := 0 })
      else ([cstr path], (SPIFFS_stat (cstr path) uninit).2)
    if ret ≠ 0 then (r.1, Res.raise MP_EIO)
    else (r.1, Res.ret (stat_tuple r.2))

/-! ## listdir -/

/-- The fields of the driver's `struct spiffs_dirent`; `name` is its byte array. -/
structure spiffs_dirent where
  obj_id : Nat
  name : List Nat
  type : Nat
  size : Nat
  deriving DecidableEq, Repr

/-- The body of the `SPIFFS_readdir` loop of `mp_vfs_listdir` for one entry: `none` is
undefined behaviour, `some none` an entry that is skipped, `some (some s)` the string
appended to the result. `name` is the local `char name[N] = { 0 }` after the `memcpy` of
`strlen(de.name)` bytes; a `name` left without NUL (a name of `N` bytes) is counted as
undefined, since `strncmp` and `sprintf` would scan past it. `res_str` is the local
`char res_str[N + 1]` after `sprintf(res_str, "%s", name)`. -/
def listdir_entry (N : Nat) (dirToList : List Nat) (de : spiffs_dirent) :
    Option (Option (List Nat)) :=
  match strlen de.name, strlen dirToList with
  | some l, some ld =>
    match store (List.replicate N 0) 0 (de.name.take l) with
    | none => none
    | some name =>
      if 0 ∈ name then
        if strncmp name dirToList ld = 0 then
          match store (List.replicate (N + 1) 0) 0 (cstr name ++ [0]) with
          | none => none
          | some res_str => some (some (cstr res_str))
        else some none
      else none
  | _, _ => none

/-- The `while (SPIFFS_readdir (&dir, &de))` loop over the entries the iterator yields. -/
def listdir_loop (N : Nat) (dirToList : List Nat) :
    List spiffs_dirent → List (List Nat) → Option (List (List Nat))
  | [], dir_list => some dir_list
  | de :: des, dir_list =>
    match listdir_entry N dirToList de with
    | none => none
    | some none => listdir_loop N dirToList des dir_list
    | some (some s) => listdir_loop N dirToList des (dir_list ++ [s])

/-- The entry point `mp_vfs_listdir(n_args, args)`. `SPIFFS_opendir name` is `none` when
the driver cannot open its iterator and otherwise the entries that `SPIFFS_readdir` yields,
in order. The closing `SPIFFS_closedir` and the re-open on the cursor act on the driver
only and are left out. -/
def mp_vfs_listdir (N : Nat) (SPIFFS_opendir : List Nat → Option (List spiffs_dirent))
    (current_dir : List Nat) (args : List (List Nat)) : Res (List (List Nat)) :=
  let dirToList : List Nat := match args with
    | [] => lit ""
    | a :: _ => a
  let dirToList := if args.length = 0 ∨ strcmp dirToList (lit ".") = 0 then current_dir
    else dirToList
  match SPIFFS_opendir (cstr dirToList) with
  | none => Res.raise MP_EIO
  | some des =>
    match listdir_loop N dirToList des [] with
    | none => Res.undefined
    | some dir_list => Res.ret dir_list

/-! ## Storage driver -/

/-- Modelled from the spec: the result conventions of the storage driver's seek, which is
not part of this source file. `returnsOffset`: a successful seek returns the new offset
(otherwise it returns 0). `pastEndFails`: a seek beyond the end of the object fails
(otherwise it succeeds and a later write fills the gap with zeros). -/
structure SeekCfg where
  returnsOffset : Bool
  pastEndFails : Bool
  deriving DecidableEq, Repr

/-- An open handle of the storage driver: descriptor, object name, offset. -/
structure spiffs_fd where
  fd : Int
  name : List Nat
  pos : Nat
  deriving DecidableEq, Repr

/-- Modelled from the spec: the state of the storage driver (`fs`), a flat set of named
objects that are byte sequences (the first entry for a name is the current one), and the
open handles. -/
structure spiffs where
  files : List (List Nat × List Nat)
  fds : List spiffs_fd
  deriving DecidableEq, Repr

/-- The contents of an object, empty when it does not exist. -/
def spiffs.data (fs : spiffs) (name : List Nat) : List Nat :=
  (fs.files.lookup name).getD []

/-- The descriptors of the open handles. -/
def spiffs.open_fds (fs : spiffs) : List Int := fs.fds.map (fun h => h.fd)

/-- Replace the offset of the handles with descriptor `fd`. -/
def spiffs.setPos (fs : spiffs) (fd : Int) (pos : Nat) : spiffs :=
  { fs with fds := fs.fds.map (fun h => if h.fd = fd then { h with pos := pos } else h) }

/-- Modelled from the spec: `SPIFFS_open(&fs, path, flags, 0)` with the flags `SPIFFS_CREAT`
and `SPIFFS_TRUNC` given as booleans (read-write access in both callers). Returns -1 when
the object does not exist and is not created. -/
def SPIFFS_open (fs : spiffs) (path : List Nat) (creat trunc : Bool) : spiffs × Int :=
  let fd : Int := fs.fds.foldl (fun m h => max m h.fd) 0 + 1
  match fs.files.lookup path with
  | some _ =>
    ({ files := if trunc then (path, []) :: fs.files else fs.files,
       fds := { fd := fd, name := path, pos := 0 } :: fs.fds }, fd)
  | none =>
    if creat then
      ({ files := (path, []) :: fs.files,
         fds := { fd := fd, name := path, pos := 0 } :: fs.fds }, fd)
    else (fs, -1)

/-- Modelled from the spec: `SPIFFS_lseek(&fs, fd, offs, whence)`, whence 0 absolute,
1 relative to the current offset, 2 relative to the end. -/
def SPIFFS_lseek (cfg : SeekCfg) (fs : spiffs) (fd : Int) (offs : Int) (whence : Int) :
    spiffs × Int :=
  match fs.fds.find? (fun h => h.fd = fd) with
  | none => (fs, -1)
  | some h =>
    let size : Int := (fs.data h.name).length
    let base : Option Int :=
      if whence = 0 then some 0
      else if whence = 1 then some (h.pos : Int)
      else if whence = 2 then some size
      else none
    match base with
    | none => (fs, -1)
    | some b =>
      let np := b + offs
      if np < 0 ∨ (cfg.pastEndFails = true ∧ size < np) then (fs, -1)
      else (fs.setPos fd np.toNat, if cfg.returnsOffset then np else 0)

/-- Modelled from the spec: `SPIFFS_write(&fs, fd, buf, len)` writes the whole buffer at the
handle's offset and returns the number of bytes written. -/
def SPIFFS_write (fs : spiffs) (fd : Int) (buf : List Nat) : spiffs × Int :=
  match fs.fds.find? (fun h => h.fd = fd) with
  | none => (fs, -1)
  | some h =>
    let data := fs.data h.name
    let padded := data ++ List.replicate (h.pos - data.length) 0
    let data1 := padded.take h.pos ++ buf ++ padded.drop (h.pos + buf.length)
    (({ fs with files := (h.name, data1) :: fs.files }).setPos fd (h.pos + buf.length),
      (buf.length : Int))

/-- Modelled from the spec: `SPIFFS_read(&fs, fd, buf, len)` reads up to `len` bytes at
the handle's offset; returns the count and the bytes read. -/
def SPIFFS_read (fs : spiffs) (fd : Int) (len : Nat) : spiffs × Int × List Nat :=
  match fs.fds.find? (fun h => h.fd = fd) with
  | none => (fs, -1, [])
  | some h =>
    let bytes := ((fs.data h.name).drop h.pos).take len
    (fs.setPos fd (h.pos + bytes.length), (bytes.length : Int), bytes)

/-- Modelled from the spec: `SPIFFS_fflush(&fs, fd)`. -/
def SPIFFS_fflush (fs : spiffs) (fd : Int) : spiffs × Int :=
  match fs.fds.find? (fun h => h.fd = fd) with
  | none => (fs, -1)
  | some _ => (fs, 0)

/-- Modelled from the spec: `SPIFFS_close(&fs, fd)` releases the handle. -/
def SPIFFS_close (fs : spiffs) (fd : Int) : spiffs × Int :=
  ({ fs with fds := fs.fds.filter (fun h => h.fd ≠ fd) }, 0)

/-! ## write and read -/

/-- The entry point `mp_vfs_write(path, offset, mode, buffer)`: the driver state after the call and how
the call ends. -/
def mp_vfs_write (cfg : SeekCfg) (fs : spiffs) (path : List Nat) (offset : Int) (mode : Int)
    (buf : List Nat) : spiffs × Res Unit :=
  let (fs, fd) := SPIFFS_open fs path true true
  if fd = -1 then (fs, Res.raise MP_EIO)
  else
    let (fs, ls_res) := SPIFFS_lseek cfg fs fd offset mode
    if ls_res ≠ 0 then (fs, Res.raise MP_EIO)
    else
      let (fs, w_res) := SPIFFS_write fs fd buf
      if w_res ≤ 0 then (fs, Res.raise MP_EIO)
      else
        let (fs, f_res) := SPIFFS_fflush fs fd
        if f_res ≠ 0 then (fs, Res.raise MP_EIO)
        else ((SPIFFS_close fs fd).1, Res.ret ())

/-- The entry point `mp_vfs_read(path, offset, mode, buffer)`: the driver state after the call, how the
call ends, and the contents of the caller's buffer after the call. -/
def mp_vfs_read (cfg : SeekCfg) (fs : spiffs) (path : List Nat) (offset : Int) (mode : Int)
    (buf : List Nat) : spiffs × Res Unit × List Nat :=
  let (fs, fd) := SPIFFS_open fs path false false
  if fd = -1 then (fs, Res.raise MP_EIO, buf)
  else
    let (fs, ls_res) := SPIFFS_lseek cfg fs fd offset mode
    if ls_res ≠ 0 then (fs, Res.raise MP_EIO, buf)
    else
      let (fs, r_res, bytes) := SPIFFS_read fs fd buf.length
      let buf := bytes ++ buf.drop bytes.length
      if r_res < 0 then (fs, Res.raise MP_EIO, buf)
      else ((SPIFFS_close fs fd).1, Res.ret (), buf)

/-- The absolute path that `API_FS_FullPath` resolves the input string `p` to under the
cursor string `c`. -/
def resolved (c p : List Nat) : List Nat := if p.head? = some 47 then p else c ++ p

/-- The descriptor that `SPIFFS_open` hands out in state `fs`. -/
def next_fd (fs : spiffs) : Int := fs.fds.foldl (fun m h => max m h.fd) 0 + 1

/-! ## Statements about the cursor -/

/-- A string ends in exactly one trailing '/': its last character is '/' and, when it is
longer than one character, the character before the last is not '/'. -/
def ends_in_one_slash (s : List Nat) : Prop :=
  s.getLast? = some 47 ∧ (1 < s.length → s.dropLast.getLast? ≠ some 47)

/-- Reference, in the spec's words: `slash(s)` is `s` if `s` ends with '/', else `s ++ "/"`. -/
def slash (s : List Nat) : List Nat := if s.getLast? = some 47 then s else s ++ [47]

/-- Reference, in the spec's words: the new cursor string after `change(s)` from the cursor
string `c`, with `N = SPIFFS_OBJ_NAME_LEN`: `slash` of the first `N - 1` bytes of `s` when
`s` starts with '/', and `slash (c ++ first max(0, N - |c| - 1) bytes of s)` otherwise. -/
def change_ref (N : Nat) (c s : List Nat) : List Nat :=
  if s.head? = some 47 then slash (s.take (N - 1))
  else slash (c ++ s.take (N - c.length - 1))

/-- The cursor invariant on the array of `N + 1` bytes: it holds a NUL-terminated string
(so of at most `N` characters) that begins with '/' and ends with '/'. -/
def cursor_inv (N : Nat) (buf : List Nat) : Prop :=
  buf.length = N + 1 ∧ 0 ∈ buf ∧ (cstr buf).head? = some 47 ∧ (cstr buf).getLast? = some 47

/-! ## Lemmas on C strings -/

theorem cstr_ne_zero {b : List Nat} {x : Nat} (h : x ∈ cstr b) : x ≠ 0 := by
  induction b with
  | nil => simp [cstr] at h
  | cons a t ih =>
    by_cases ha : a = 0
    · simp [cstr, ha] at h
    · simp only [cstr, ha, if_false, List.mem_cons] at h
      rcases h with h | h
      · exact h ▸ ha
      · exact ih h

theorem cstr_append_zero (s r : List Nat) (h : ∀ x ∈ s, x ≠ 0) : cstr (s ++ 0 :: r) = s := by
  induction s with
  | nil => simp [cstr]
  | cons a t ih =>
    have ha : a ≠ 0 := h a (by simp)
    have := ih (fun x hx => h x (by simp [hx]))
    simp [cstr, ha, this]

theorem cstr_of_no_zero (s : List Nat) (h : ∀ x ∈ s, x ≠ 0) : cstr s = s := by
  induction s with
  | nil => simp [cstr]
  | cons a t ih =>
    have ha : a ≠ 0 := h a (by simp)
    have := ih (fun x hx => h x (by simp [hx]))
    simp [cstr, ha, this]

theorem cstr_append_of_no_zero (s r : List Nat) (h : ∀ x ∈ s, x ≠ 0) :
    cstr (s ++ r) = s ++ cstr r := by
  induction s with
  | nil => simp
  | cons a t ih =>
    have ha : a ≠ 0 := h a (by simp)
    have := ih (fun x hx => h x (by simp [hx]))
    simp [cstr, ha, this]

theorem cstr_decomp {b : List Nat} (h : 0 ∈ b) : ∃ r, b = cstr b ++ 0 :: r := by
  induction b with
  | nil => simp at h
  | cons a t ih =>
    by_cases ha : a = 0
    · subst ha
      exact ⟨t, by simp [cstr]⟩
    · have ht : 0 ∈ t := by
        rcases List.mem_cons.mp h with h0 | h0
        · exact absurd h0.symm ha
        · exact h0
      obtain ⟨r, hr⟩ := ih ht
      refine ⟨r, ?_⟩
      simp only [cstr, ha, if_false, List.cons_append]
      rw [← hr]

theorem cstr_take (n : Nat) (b : List Nat) : cstr (b.take n) = (cstr b).take n := by
  induction b generalizing n with
  | nil => simp [cstr]
  | cons a t ih =>
    cases n with
    | zero => simp [cstr]
    | succ m =>
      by_cases ha : a = 0
      · simp [cstr, ha]
      · simp [cstr, ha, ih]

theorem cstr_length_le (b : List Nat) : (cstr b).length ≤ b.length := by
  induction b with
  | nil => simp [cstr]
  | cons a t ih =>
    by_cases ha : a = 0
    · simp [cstr, ha]
    · simp [cstr, ha]; omega

theorem cstr_length_lt {b : List Nat} (h : 0 ∈ b) : (cstr b).length < b.length := by
  obtain ⟨r, hr⟩ := cstr_decomp h
  have := congrArg List.length hr
  simp at this
  omega

theorem strlen_eq_some {b : List Nat} {l : Nat} :
    strlen b = some l ↔ 0 ∈ b ∧ l = (cstr b).length := by
  unfold strlen
  by_cases h : 0 ∈ b <;> simp [h, eq_comm]

theorem strlen_of_mem {b : List Nat} (h : 0 ∈ b) : strlen b = some (cstr b).length := by
  simp [strlen, h]

theorem store_append (s r bs : List Nat) (h : bs.length ≤ r.length) :
    store (s ++ r) s.length bs = some (s ++ bs ++ r.drop bs.length) := by
  unfold store
  have : s.length + bs.length ≤ (s ++ r).length := by simp; omega
  simp [this, List.drop_append_eq_append_drop]
  exact h

theorem store_zero (r bs : List Nat) (h : bs.length ≤ r.length) :
    store r 0 bs = some (bs ++ r.drop bs.length) := by
  simpa using store_append [] r bs h

theorem store_length {b bs b1 : List Nat} {i : Nat} (h : store b i bs = some b1) :
    b1.length = b.length := by
  unfold store at h
  split at h
  · cases h
    simp
    omega
  · cases h

/-! ## C1: path resolution -/

theorem malloc_some (f : Nat → Nat) (n : Nat) :
    ∃ m, malloc (some f) n = some m ∧ m.length = n :=
  ⟨(List.range n).map f, rfl, by simp⟩

theorem cstr_store_str {b s b1 : List Nat} {i : Nat} (hi : ∀ x ∈ b.take i, x ≠ 0)
    (hs : ∀ x ∈ s, x ≠ 0) (h : store b i (s ++ [0]) = some b1) :
    cstr b1 = b.take i ++ s := by
  unfold store at h
  split at h
  · cases h
    have : ∀ x ∈ b.take i ++ s, x ≠ 0 := by
      intro x hx
      rcases List.mem_append.mp hx with hx | hx
      · exact hi x hx
      · exact hs x hx
    have h2 := cstr_append_zero (b.take i ++ s) (b.drop (i + (s ++ [0]).length)) this
    simpa using h2
  · cases h

theorem take_strlen (b : List Nat) : b.take (cstr b).length = cstr b := by
  induction b with
  | nil => simp [cstr]
  | cons a t ih =>
    by_cases ha : a = 0
    · simp [cstr, ha]
    · simp [cstr, ha, ih]

theorem store_some (b bs : List Nat) (i : Nat) (h : i + bs.length ≤ b.length) :
    ∃ b1, store b i bs = some b1 := by
  unfold store
  simp [h]

theorem strcpy_spec (dst : List Nat) {src : List Nat} (hs : 0 ∈ src)
    (hfit : (cstr src).length + 1 ≤ dst.length) :
    ∃ b, strcpy dst src = some b ∧ cstr b = cstr src ∧ b.length = dst.length := by
  obtain ⟨b, hb⟩ := store_some dst (cstr src ++ [0]) 0 (by simp; omega)
  refine ⟨b, by simp [strcpy, hs, hb], ?_, store_length hb⟩
  have := cstr_store_str (by simp) (fun x hx => cstr_ne_zero hx) hb
  simpa using this

theorem strcat_spec (dst : List Nat) {src : List Nat} (hd : 0 ∈ dst) (hs : 0 ∈ src)
    (hfit : (cstr dst).length + (cstr src).length + 1 ≤ dst.length) :
    ∃ b, strcat dst src = some b ∧ cstr b = cstr dst ++ cstr src ∧ b.length = dst.length := by
  obtain ⟨b, hb⟩ := store_some dst (cstr src ++ [0]) (cstr dst).length
    (by simp; omega)
  refine ⟨b, by simp [strcat, strlen_of_mem hd, hs, hb], ?_, store_length hb⟩
  have := cstr_store_str (by rw [take_strlen]; exact fun x hx => cstr_ne_zero hx)
    (fun x hx => cstr_ne_zero hx) hb
  rw [take_strlen] at this
  exact this

theorem mem_zero_of_cstr_lt {b : List Nat} (h : (cstr b).length < b.length) : 0 ∈ b := by
  induction b with
  | nil => simp at h
  | cons a t ih =>
    by_cases ha : a = 0
    · simp [ha]
    · simp only [cstr, ha, if_false, List.length_cons] at h
      exact List.mem_cons_of_mem _ (ih (by omega))

/-- With a successful allocation `API_FS_FullPath` returns a buffer that holds the resolved
path. -/
theorem API_FS_FullPath_resolved (f : Nat → Nat) (current_dir path_in : List Nat)
    (hc : 0 ∈ current_dir) (hp : 0 ∈ path_in) :
    ∃ m, API_FS_FullPath (some f) current_dir path_in = some (some m) ∧
      cstr m = resolved (cstr current_dir) (cstr path_in) := by
  obtain ⟨m0, hm0, hlen⟩ := malloc_some f ((cstr current_dir).length + (cstr path_in).length + 2)
  have hhead : (cstr path_in).head? = some 47 ↔ path_in.head? = some 47 := by
    cases path_in with
    | nil => simp [cstr]
    | cons a t =>
      by_cases ha : a = 0
      · simp [cstr, ha]
      · simp [cstr, ha]
  unfold API_FS_FullPath resolved
  rw [strlen_of_mem hc, strlen_of_mem hp]
  simp only [hm0]
  by_cases hh : path_in.head? = some 47
  · obtain ⟨b, hb, hcs, _⟩ := strcpy_spec m0 hp (by omega)
    exact ⟨b, by simp [hh, hb], by simp [hhead, hh, hcs]⟩
  · obtain ⟨b1, hb1, hcs1, hl1⟩ := strcpy_spec m0 hc (by omega)
    have h01 : 0 ∈ b1 := mem_zero_of_cstr_lt (by rw [hcs1, hl1]; omega)
    obtain ⟨b, hb, hcs, _⟩ := strcat_spec b1 h01 hp (by rw [hcs1, hl1]; omega)
    exact ⟨b, by simp [hh, hb1, hb], by simp [hhead, hh, hcs, hcs1]⟩

theorem API_FS_FullPath_null (current_dir path_in : List Nat)
    (hc : 0 ∈ current_dir) (hp : 0 ∈ path_in) :
    API_FS_FullPath none current_dir path_in = some none := by
  unfold API_FS_FullPath
  rw [strlen_of_mem hc, strlen_of_mem hp]
  simp [malloc]

/-- C1. For every current-directory array holding a string `c` and every input string `p`,
`API_FS_FullPath` with a successful allocation returns a buffer holding `p` itself when
`p` starts with '/', and the concatenation `c ++ p` otherwise (so the empty input resolves
to `c`); with a failed allocation it returns NULL. -/
theorem API_FS_FullPath_spec (f : Nat → Nat) (current_dir path_in : List Nat)
    (hc : 0 ∈ current_dir) (hp : 0 ∈ path_in) :
    (∃ m, API_FS_FullPath (some f) current_dir path_in = some (some m) ∧
      cstr m = if (cstr path_in).head? = some 47 then cstr path_in
               else cstr current_dir ++ cstr path_in) ∧
    (cstr path_in = [] →
      ∃ m, API_FS_FullPath (some f) current_dir path_in = some (some m) ∧
        cstr m = cstr current_dir) ∧
    API_FS_FullPath none current_dir path_in = some none := by
  obtain ⟨m, hm, hcs⟩ := API_FS_FullPath_resolved f current_dir path_in hc hp
  refine ⟨⟨m, hm, hcs⟩, fun hnil => ⟨m, hm, ?_⟩, API_FS_FullPath_null current_dir path_in hc hp⟩
  rw [hcs, hnil]
  simp [resolved]

/-- Instance of `API_FS_FullPath_spec`: cursor "/a/", relative input "b". -/
theorem API_FS_FullPath_spec_witness :
    ∃ m, API_FS_FullPath (some (fun _ => 7)) (lit "/a/") (lit "b") = some (some m) ∧
      cstr m = if (cstr (lit "b")).head? = some 47 then cstr (lit "b")
               else cstr (lit "/a/") ++ cstr (lit "b") :=
  (API_FS_FullPath_spec (fun _ => 7) (lit "/a/") (lit "b") (by decide) (by decide)).1

/-! ## C4, C5, C8: remove and stat -/

theorem strcmp_eq_zero (a b : List Nat) : strcmp a b = 0 ↔ cstr a = cstr b := by
  induction a generalizing b with
  | nil =>
    cases b with
    | nil => simp [strcmp, cstr]
    | cons y bs =>
      by_cases hy : y = 0
      · simp [strcmp, cstr, hy]
      · simp [strcmp, cstr, hy]
  | cons x as ih =>
    cases b with
    | nil =>
      by_cases hx : x = 0
      · simp [strcmp, cstr, hx]
      · simp [strcmp, cstr, hx]
    | cons y bs =>
      by_cases hxy : x = y
      · subst hxy
        by_cases hx : x = 0
        · simp [strcmp, cstr, hx]
        · simp [strcmp, cstr, hx, ih]
      · have hne : (x : Int) - (y : Int) ≠ 0 := by omega
        by_cases hx : x = 0
        · have hy : y ≠ 0 := fun h => hxy (by omega)
          simp [strcmp, cstr, hxy, hx, hy, hne]
          omega
        · by_cases hy : y = 0
          · simp [strcmp, cstr, hxy, hx, hy, hne]
          · simp [strcmp, cstr, hxy, hx, hy, hne]

/-- C4. With a successful allocation, `mp_vfs_remove` raises `EINVAL` without calling the
driver's delete exactly when the resolved path is "/" or "/t"; for every other resolved
path it calls the driver's delete on exactly that path and raises `EIO` exactly when the
delete returns a non-zero result. -/
theorem mp_vfs_remove_spec (f : Nat → Nat) (rm : List Nat → Int)
    (current_dir path_in : List Nat) (hc : 0 ∈ current_dir) (hp : 0 ∈ path_in) :
    ((mp_vfs_remove (some f) rm current_dir path_in).2 = Res.raise MP_EINVAL ↔
      (resolved (cstr current_dir) (cstr path_in) = cstr (lit "/") ∨
       resolved (cstr current_dir) (cstr path_in) = cstr (lit "/t"))) ∧
    ((resolved (cstr current_dir) (cstr path_in) = cstr (lit "/") ∨
       resolved (cstr current_dir) (cstr path_in) = cstr (lit "/t")) →
      mp_vfs_remove (some f) rm current_dir path_in = ([], Res.raise MP_EINVAL)) ∧
    (¬ (resolved (cstr current_dir) (cstr path_in) = cstr (lit "/") ∨
       resolved (cstr current_dir) (cstr path_in) = cstr (lit "/t")) →
      (mp_vfs_remove (some f) rm current_dir path_in).1 =
        [resolved (cstr current_dir) (cstr path_in)] ∧
      ((mp_vfs_remove (some f) rm current_dir path_in).2 = Res.raise MP_EIO ↔
        rm (resolved (cstr current_dir) (cstr path_in)) ≠ 0) ∧
      (rm (resolved (cstr current_dir) (cstr path_in)) = 0 →
        (mp_vfs_remove (some f) rm current_dir path_in).2 = Res.ret ())) := by
  obtain ⟨m, hm, hr⟩ := API_FS_FullPath_resolved f current_dir path_in hc hp
  rw [← hr]
  unfold mp_vfs_remove
  simp only [hm, strcmp_eq_zero]
  by_cases hspecial : cstr m = cstr (lit "/") ∨ cstr m = cstr (lit "/t")
  · simp [hspecial]
  · by_cases hrm : rm (cstr m) = 0
    · simp [hspecial, hrm]
    · simp [hspecial, hrm, MP_EIO, MP_EINVAL]

/-- Instance of `mp_vfs_remove_spec`: cursor "/", input "t", a driver whose delete
succeeds. -/
theorem mp_vfs_remove_spec_witness :
    mp_vfs_remove (some id) (fun _ => 0) (lit "/") (lit "t") = ([], Res.raise MP_EINVAL) :=
  (mp_vfs_remove_spec id (fun _ => 0) (lit "/") (lit "t") (by decide) (by decide)).2.1
    (by decide)

theorem stat_tuple_eq (r : spiffs_stat) :
    stat_tuple r =
      [if r.type = 2 then 0o040000 else 0o100777, r.obj_id, 0, 0, 0, 0, r.size, 0, 0, 0] := by
  rfl

/-- C5. With a successful allocation, `mp_vfs_stat` on an input that resolves to "/"
returns `(0o040000, 0, 0,0,0,0, 0, 0,0,0)` without calling the driver's stat, whatever the
driver would answer; on any other resolved path for which the driver's stat succeeds with
a record `r` it returns `(mode, r.obj_id, 0,0,0,0, r.size, 0,0,0)` with mode `0o040000`
when `r.type = 2` and `0o100777` otherwise. -/
theorem mp_vfs_stat_spec (f : Nat → Nat)
    (st : List Nat → spiffs_stat → Int × spiffs_stat) (uninit : spiffs_stat)
    (current_dir path_in : List Nat) (hc : 0 ∈ current_dir) (hp : 0 ∈ path_in) :
    (resolved (cstr current_dir) (cstr path_in) = cstr (lit "/") →
      mp_vfs_stat (some f) st uninit current_dir path_in =
        ([], Res.ret [0o040000, 0, 0, 0, 0, 0, 0, 0, 0, 0])) ∧
    (resolved (cstr current_dir) (cstr path_in) ≠ cstr (lit "/") →
      ∀ r : spiffs_stat, st (resolved (cstr current_dir) (cstr path_in)) uninit = (0, r) →
        mp_vfs_stat (some f) st uninit current_dir path_in =
          ([resolved (cstr current_dir) (cstr path_in)],
            Res.ret [if r.type = 2 then 0o040000 else 0o100777, r.obj_id, 0, 0, 0, 0,
              r.size, 0, 0, 0])) := by
  obtain ⟨m, hm, hr⟩ := API_FS_FullPath_resolved f current_dir path_in hc hp
  rw [← hr]
  unfold mp_vfs_stat
  simp only [hm, strcmp_eq_zero]
  constructor
  · intro h
    simp [h, stat_tuple_eq]
  · intro h r hst
    simp [h, hst, stat_tuple_eq]

/-- Instance of `mp_vfs_stat_spec`: cursor "/", input "/", a driver whose stat fails. -/
theorem mp_vfs_stat_spec_witness :
    mp_vfs_stat (some id) (fun _ s => (-1, s)) ⟨9, 9, 9⟩ (lit "/") (lit "/") =
      ([], Res.ret [0o040000, 0, 0, 0, 0, 0, 0, 0, 0, 0]) :=
  (mp_vfs_stat_spec id (fun _ s => (-1, s)) ⟨9, 9, 9⟩ (lit "/") (lit "/")
    (by decide) (by decide)).1 (by decide)

/-- Whatever result code the driver's stat returns, `mp_vfs_stat` on a path other than "/"
returns a tuple built from the record: the code never reads the result of `SPIFFS_stat`. -/
theorem mp_vfs_stat_ignores_result (f : Nat → Nat)
    (st : List Nat → spiffs_stat → Int × spiffs_stat) (uninit : spiffs_stat)
    (current_dir path_in : List Nat) (hc : 0 ∈ current_dir) (hp : 0 ∈ path_in)
    (hroot : resolved (cstr current_dir) (cstr path_in) ≠ cstr (lit "/")) :
    (mp_vfs_stat (some f) st uninit current_dir path_in).2 =
      Res.ret (stat_tuple (st (resolved (cstr current_dir) (cstr path_in)) uninit).2) := by
  obtain ⟨m, hm, hr⟩ := API_FS_FullPath_resolved f current_dir path_in hc hp
  rw [← hr] at hroot ⊢
  unfold mp_vfs_stat
  simp [hm, strcmp_eq_zero, hroot]

/-- C8 (defect). Cursor "/", input "nofile", a driver whose stat fails with -1 and leaves
the caller's record untouched: `mp_vfs_stat` raises nothing and returns a tuple built from
the unspecified initial content of the local record. -/
theorem mp_vfs_stat_failed_query_returns_tuple :
    mp_vfs_stat (some id) (fun _ s => (-1, s)) ⟨9, 9, 9⟩ (lit "/") (lit "nofile") =
      ([cstr (lit "/nofile")], Res.ret [0o100777, 9, 0, 0, 0, 0, 9, 0, 0, 0]) := by
  decide

/-! ## C6: listdir -/

theorem strncmp_eq_zero_iff (a d : List Nat) :
    strncmp a d (cstr d).length = 0 ↔ cstr d <+: cstr a := by
  induction d generalizing a with
  | nil => simp [cstr, strncmp]
  | cons y ds ih =>
    by_cases hy : y = 0
    · simp [cstr, hy, strncmp]
    · cases a with
      | nil => simp [cstr, hy, strncmp]
      | cons x as =>
        by_cases hxy : x = y
        · subst hxy
          simp [cstr, hy, strncmp, ih, List.cons_prefix_cons]
        · have hne : (x : Int) - (y : Int) ≠ 0 := by omega
          by_cases hx : x = 0
          · simp [cstr, hy, hx, strncmp, hxy, hne]
            omega
          · simp [cstr, hy, hx, strncmp, hxy, hne, List.cons_prefix_cons]
            intro h
            exact absurd h.symm hxy

theorem cstr_append_replicate_zero (s : List Nat) (k : Nat) (h : ∀ x ∈ s, x ≠ 0) :
    cstr (s ++ List.replicate k 0) = s := by
  cases k with
  | zero => simpa using cstr_of_no_zero s h
  | succ k => simpa [List.replicate_succ] using cstr_append_zero s (List.replicate k 0) h

theorem listdir_entry_spec (N : Nat) (dirToList : List Nat) (de : spiffs_dirent)
    (hd : 0 ∈ dirToList) (hn : 0 ∈ de.name) (hlen : (cstr de.name).length < N) :
    listdir_entry N dirToList de =
      some (if cstr dirToList <+: cstr de.name then some (cstr de.name) else none) := by
  unfold listdir_entry
  rw [strlen_of_mem hn, strlen_of_mem hd]
  simp only [take_strlen]
  have h1 := store_zero (List.replicate N 0) (cstr de.name) (by simp; omega)
  simp only [h1, List.drop_replicate]
  have hz : 0 ∈ cstr de.name ++ List.replicate (N - (cstr de.name).length) 0 := by
    apply List.mem_append_right
    simp
    omega
  have hcs : cstr (cstr de.name ++ List.replicate (N - (cstr de.name).length) 0)
      = cstr de.name := cstr_append_replicate_zero _ _ (fun x hx => cstr_ne_zero hx)
  simp only [hz, if_true, strncmp_eq_zero_iff, hcs]
  have h2 := store_zero (List.replicate (N + 1) 0) (cstr de.name ++ [0]) (by simp; omega)
  simp only [h2]
  have hcs2 : cstr (cstr de.name ++ [0] ++
      List.drop (cstr de.name ++ [0]).length (List.replicate (N + 1) 0)) = cstr de.name := by
    rw [List.append_assoc]
    exact cstr_append_zero _ _ (fun x hx => cstr_ne_zero hx)
  rw [hcs2]
  split <;> rfl

theorem listdir_loop_spec (N : Nat) (dirToList : List Nat) (hd : 0 ∈ dirToList)
    (des : List spiffs_dirent) (acc : List (List Nat))
    (hwf : ∀ de ∈ des, 0 ∈ de.name ∧ (cstr de.name).length < N) :
    listdir_loop N dirToList des acc =
      some (acc ++ (des.map (fun de => cstr de.name)).filter
        (fun n => decide (cstr dirToList <+: n))) := by
  induction des generalizing acc with
  | nil => simp [listdir_loop]
  | cons de des ih =>
    have hde := hwf de (by simp)
    have ih1 := fun acc => ih acc (fun d hdm => hwf d (by simp [hdm]))
    unfold listdir_loop
    rw [listdir_entry_spec N dirToList de hd hde.1 hde.2]
    by_cases hpre : cstr dirToList <+: cstr de.name
    · simp [hpre, ih1]
    · simp [hpre, ih1]

/-- C6. For every cursor and every sequence of entries yielded by the driver's iterator
(names NUL-terminated and shorter than `N`), `mp_vfs_listdir` with no argument, and
likewise with the argument ".", returns in enumeration order exactly the names that have
the cursor string as a prefix; when the iterator cannot be opened it raises `EIO`. -/
theorem mp_vfs_listdir_spec (N : Nat) (opendir : List Nat → Option (List spiffs_dirent))
    (current_dir : List Nat) (hc : 0 ∈ current_dir) :
    (∀ des, opendir (cstr current_dir) = some des →
      (∀ de ∈ des, 0 ∈ de.name ∧ (cstr de.name).length < N) →
      mp_vfs_listdir N opendir current_dir [] =
        Res.ret ((des.map (fun de => cstr de.name)).filter
          (fun n => decide (cstr current_dir <+: n))) ∧
      mp_vfs_listdir N opendir current_dir [lit "."] =
        Res.ret ((des.map (fun de => cstr de.name)).filter
          (fun n => decide (cstr current_dir <+: n)))) ∧
    (opendir (cstr current_dir) = none →
      mp_vfs_listdir N opendir current_dir [] = Res.raise MP_EIO ∧
      mp_vfs_listdir N opendir current_dir [lit "."] = Res.raise MP_EIO) := by
  have hdot : strcmp (lit ".") (lit ".") = 0 := by decide
  constructor
  · intro des hopen hwf
    have hl := listdir_loop_spec N current_dir hc des [] hwf
    constructor
    · simp [mp_vfs_listdir, hopen, hl]
    · simp [mp_vfs_listdir, hdot, hopen, hl]
  · intro hopen
    constructor
    · simp [mp_vfs_listdir, hopen]
    · simp [mp_vfs_listdir, hdot, hopen]

/-- Instance of `mp_vfs_listdir_spec`: cursor "/a/" over the entries "/a/x", "/b", "/a/". -/
theorem mp_vfs_listdir_spec_witness :
    mp_vfs_listdir 32 (fun _ => some [⟨1, lit "/a/x", 1, 3⟩, ⟨2, lit "/b", 1, 3⟩,
        ⟨3, lit "/a/", 1, 3⟩]) (lit "/a/") [] =
      Res.ret [cstr (lit "/a/x"), cstr (lit "/a/")] :=
  ((mp_vfs_listdir_spec 32 (fun _ => some [⟨1, lit "/a/x", 1, 3⟩, ⟨2, lit "/b", 1, 3⟩,
        ⟨3, lit "/a/", 1, 3⟩]) (lit "/a/") (by decide)).1 _ rfl (by decide)).1

/-! ## C3, C7: write and read -/

theorem foldl_max_ge (l : List spiffs_fd) (m : Int) :
    m ≤ l.foldl (fun m h => max m h.fd) m := by
  induction l generalizing m with
  | nil => simp
  | cons h t ih =>
    simp only [List.foldl_cons]
    exact le_trans (le_max_left m h.fd) (ih _)

theorem next_fd_pos (fs : spiffs) : 0 < next_fd fs := by
  have := foldl_max_ge fs.fds 0
  unfold next_fd
  omega

theorem SPIFFS_open_creat_trunc (fs : spiffs) (path : List Nat) :
    SPIFFS_open fs path true true =
      ({ files := (path, []) :: fs.files,
         fds := { fd := next_fd fs, name := path, pos := 0 } :: fs.fds }, next_fd fs) := by
  unfold SPIFFS_open next_fd
  cases h : fs.files.lookup path <;> simp

theorem SPIFFS_open_existing (fs : spiffs) (path : List Nat) (d : List Nat)
    (h : fs.files.lookup path = some d) :
    SPIFFS_open fs path false false =
      ({ files := fs.files,
         fds := { fd := next_fd fs, name := path, pos := 0 } :: fs.fds }, next_fd fs) := by
  unfold SPIFFS_open next_fd
  simp [h]

theorem SPIFFS_lseek_head_fail (cfg : SeekCfg) (F : List (List Nat × List Nat))
    (fd : Int) (nm d : List Nat) (rest : List spiffs_fd) (offs whence : Int)
    (hw : whence = 0 ∨ whence = 1) (hd : F.lookup nm = some d)
    (hbad : offs < 0 ∨ (cfg.pastEndFails = true ∧ (d.length : Int) < offs)) :
    (SPIFFS_lseek cfg { files := F, fds := { fd := fd, name := nm, pos := 0 } :: rest } fd
        offs whence).2 = -1 := by
  unfold SPIFFS_lseek
  rcases hw with hw | hw <;> subst hw <;> simp [spiffs.data, spiffs.setPos, hd, hbad]

theorem SPIFFS_lseek_head_ok (cfg : SeekCfg) (F : List (List Nat × List Nat))
    (fd : Int) (nm d : List Nat) (rest : List spiffs_fd) (offs whence : Int)
    (hw : whence = 0 ∨ whence = 1) (hd : F.lookup nm = some d)
    (hgood : ¬ (offs < 0 ∨ (cfg.pastEndFails = true ∧ (d.length : Int) < offs))) :
    SPIFFS_lseek cfg { files := F, fds := { fd := fd, name := nm, pos := 0 } :: rest } fd
        offs whence =
      ({ files := F, fds := { fd := fd, name := nm, pos := offs.toNat } ::
              rest.map (fun h => if h.fd = fd then { h with pos := offs.toNat } else h) },
            if cfg.returnsOffset then offs else 0) := by
  unfold SPIFFS_lseek
  rcases hw with hw | hw <;> subst hw <;> simp [spiffs.data, spiffs.setPos, hd, hgood]

theorem SPIFFS_write_head (F : List (List Nat × List Nat))
    (fd : Int) (nm d : List Nat) (p : Nat) (rest : List spiffs_fd) (buf : List Nat)
    (hd : F.lookup nm = some d) :
    SPIFFS_write { files := F, fds := { fd := fd, name := nm, pos := p } :: rest } fd buf =
      ({ files := (nm, (d ++ List.replicate (p - d.length) 0).take p ++ buf ++
            (d ++ List.replicate (p - d.length) 0).drop (p + buf.length)) :: F,
         fds := { fd := fd, name := nm, pos := p + buf.length } ::
            rest.map (fun h => if h.fd = fd then { h with pos := p + buf.length } else h) },
        (buf.length : Int)) := by
  unfold SPIFFS_write
  simp [spiffs.data, spiffs.setPos, hd]

theorem SPIFFS_read_head (F : List (List Nat × List Nat))
    (fd : Int) (nm d : List Nat) (p : Nat) (rest : List spiffs_fd) (len : Nat)
    (hd : F.lookup nm = some d) :
    SPIFFS_read { files := F, fds := { fd := fd, name := nm, pos := p } :: rest } fd len =
      ({ files := F,
         fds := { fd := fd, name := nm, pos := p + ((d.drop p).take len).length } ::
            rest.map (fun h => if h.fd = fd then
              { h with pos := p + ((d.drop p).take len).length } else h) },
        (((d.drop p).take len).length : Int), (d.drop p).take len) := by
  unfold SPIFFS_read
  simp [spiffs.data, spiffs.setPos, hd]

theorem SPIFFS_fflush_head (F : List (List Nat × List Nat))
    (fd : Int) (nm : List Nat) (p : Nat) (rest : List spiffs_fd) :
    SPIFFS_fflush { files := F, fds := { fd := fd, name := nm, pos := p } :: rest } fd =
      ({ files := F, fds := { fd := fd, name := nm, pos := p } :: rest }, 0) := by
  unfold SPIFFS_fflush
  simp

theorem mp_vfs_write_ok (cfg : SeekCfg) (fs : spiffs) (path : List Nat) (offset mode : Int)
    (b : List Nat) (hmode : mode = 0 ∨ mode = 1)
    (hw : (mp_vfs_write cfg fs path offset mode b).2 = Res.ret ()) :
    0 ≤ offset ∧ (cfg.returnsOffset = true → offset = 0) ∧
    (mp_vfs_write cfg fs path offset mode b).1.files =
      (path, List.replicate offset.toNat 0 ++ b) :: (path, []) :: fs.files := by
  have hfd := next_fd_pos fs
  have hfd1 : next_fd fs ≠ -1 := by omega
  have hlk : ((path, ([] : List Nat)) :: fs.files).lookup path = some [] := by simp
  unfold mp_vfs_write at hw ⊢
  rw [SPIFFS_open_creat_trunc] at hw ⊢
  simp only [hfd1, if_false] at hw ⊢
  by_cases hbad : offset < 0 ∨ (cfg.pastEndFails = true ∧ (([] : List Nat).length : Int) < offset)
  · have h1 := SPIFFS_lseek_head_fail cfg _ (next_fd fs) path [] fs.fds offset mode hmode hlk hbad
    simp [h1] at hw
  · have h1 := SPIFFS_lseek_head_ok cfg _ (next_fd fs) path [] fs.fds offset mode hmode hlk hbad
    rw [h1] at hw ⊢
    by_cases hret : (if cfg.returnsOffset = true then offset else 0) = 0
    · simp only [hret, ne_eq, not_true_eq_false, if_false] at hw ⊢
      rw [SPIFFS_write_head _ _ _ [] _ _ _ hlk] at hw ⊢
      simp only [SPIFFS_fflush_head] at hw ⊢
      by_cases hb : (b.length : Int) ≤ 0
      · simp [hb] at hw
      · simp only [hb, if_false, ne_eq, not_true_eq_false, SPIFFS_close]
        refine ⟨by omega, ?_, ?_⟩
        · intro hro
          simpa [hro] using hret
        · simp
    · simp [hret] at hw

theorem mp_vfs_read_ok (cfg : SeekCfg) (fs : spiffs) (path : List Nat) (offset mode : Int)
    (b buf : List Nat) (hmode : mode = 0 ∨ mode = 1) (hoff : 0 ≤ offset)
    (hro : cfg.returnsOffset = true → offset = 0)
    (hfile : fs.files.lookup path = some (List.replicate offset.toNat 0 ++ b))
    (hlen : buf.length ≤ b.length) :
    (mp_vfs_read cfg fs path offset mode buf).2 = (Res.ret (), b.take buf.length) := by
  have hfd := next_fd_pos fs
  have hfd1 : next_fd fs ≠ -1 := by omega
  unfold mp_vfs_read
  rw [SPIFFS_open_existing fs path _ hfile]
  simp only [hfd1, if_false]
  have hgood : ¬ (offset < 0 ∨ (cfg.pastEndFails = true ∧
      ((List.replicate offset.toNat 0 ++ b).length : Int) < offset)) := by
    simp
    constructor
    · omega
    · intro _
      omega
  rw [SPIFFS_lseek_head_ok cfg _ (next_fd fs) path _ fs.fds offset mode hmode hfile hgood]
  have hret : (if cfg.returnsOffset = true then offset else 0) = 0 := by
    by_cases h : cfg.returnsOffset = true
    · simp [h, hro h]
    · simp [h]
  simp only [hret, ne_eq, not_true_eq_false, if_false]
  rw [SPIFFS_read_head _ _ _ _ _ _ _ hfile]
  have hmin : buf.length ⊓ b.length = buf.length := min_eq_left hlen
  have hneg : ¬ ((buf.length : Int) < 0) := by omega
  simp [SPIFFS_close, List.drop_append_eq_append_drop, List.take_append_eq_append_take, hmin,
    hneg]

/-- C3 (amended). For every path, offset, byte string `b` and seek mode 0 (absolute) or
1 (relative to the current offset), under every result convention of the driver's seek: if
`mp_vfs_write` succeeds, then `mp_vfs_read` at the same path, offset and mode with a buffer
no longer than `b` succeeds and leaves the buffer equal to the first bytes of `b`. -/
theorem mp_vfs_write_read_roundtrip (cfg : SeekCfg) (fs : spiffs) (path : List Nat)
    (offset mode : Int) (b buf : List Nat) (hmode : mode = 0 ∨ mode = 1)
    (hw : (mp_vfs_write cfg fs path offset mode b).2 = Res.ret ())
    (hlen : buf.length ≤ b.length) :
    (mp_vfs_read cfg (mp_vfs_write cfg fs path offset mode b).1 path offset mode buf).2 =
      (Res.ret (), b.take buf.length) := by
  obtain ⟨hoff, hro, hfiles⟩ := mp_vfs_write_ok cfg fs path offset mode b hmode hw
  exact mp_vfs_read_ok cfg _ path offset mode b buf hmode hoff hro (by simp [hfiles]) hlen

/-- Instance of `mp_vfs_write_read_roundtrip`: the "hello" example on an empty volume. -/
theorem mp_vfs_write_read_roundtrip_witness :
    (mp_vfs_read ⟨true, true⟩
        (mp_vfs_write ⟨true, true⟩ ⟨[], []⟩ (cstr (lit "/x")) 0 0 (cstr (lit "hello"))).1
        (cstr (lit "/x")) 0 0 [0, 0, 0, 0, 0]).2 =
      (Res.ret (), (cstr (lit "hello")).take [0, 0, 0, 0, 0].length) :=
  mp_vfs_write_read_roundtrip ⟨true, true⟩ ⟨[], []⟩ (cstr (lit "/x")) 0 0 (cstr (lit "hello"))
    [0, 0, 0, 0, 0] (by decide) (by decide) (by decide)

/-- C3 (counterexample). On an empty volume, under either result convention of the
driver's seek, `write("/x", 0, 2, b"hello")` succeeds, and the following
`read("/x", 0, 2, buf[5])` seeks to the end of the five bytes just written: it raises `EIO`
when the seek returns the new offset, and otherwise returns with the buffer untouched. -/
theorem mp_vfs_write_read_seek_end :
    (mp_vfs_write ⟨true, true⟩ ⟨[], []⟩ (cstr (lit "/x")) 0 2 (cstr (lit "hello"))).2
      = Res.ret () ∧
    (mp_vfs_read ⟨true, true⟩
        (mp_vfs_write ⟨true, true⟩ ⟨[], []⟩ (cstr (lit "/x")) 0 2 (cstr (lit "hello"))).1
        (cstr (lit "/x")) 0 2 [0, 0, 0, 0, 0]).2 = (Res.raise MP_EIO, [0, 0, 0, 0, 0]) ∧
    (mp_vfs_write ⟨false, false⟩ ⟨[], []⟩ (cstr (lit "/x")) 0 2 (cstr (lit "hello"))).2
      = Res.ret () ∧
    (mp_vfs_read ⟨false, false⟩
        (mp_vfs_write ⟨false, false⟩ ⟨[], []⟩ (cstr (lit "/x")) 0 2 (cstr (lit "hello"))).1
        (cstr (lit "/x")) 0 2 [0, 0, 0, 0, 0]).2 = (Res.ret (), [0, 0, 0, 0, 0]) := by
  decide

/-- C7 (defect). On an empty volume, `write("/x", -1, 0, b"a")` opens a handle, the seek
to a negative offset fails, and the call raises `EIO` with the handle still open; likewise
`write("/x", 0, 0, b"")`, where the write of zero bytes returns 0, and
`read("/x", -1, 0, buf[1])` on a volume that holds "/x". No handle was open before these
calls and one is open after each. The successful `write("/x", 0, 0, b"a")` and the `read`
of a missing object, whose open fails, leave no handle open. -/
theorem mp_vfs_write_leaks_handle :
    (⟨[], []⟩ : spiffs).open_fds = [] ∧
    (mp_vfs_write ⟨true, true⟩ ⟨[], []⟩ (cstr (lit "/x")) (-1) 0 (cstr (lit "a"))).2
      = Res.raise MP_EIO ∧
    (mp_vfs_write ⟨true, true⟩ ⟨[], []⟩ (cstr (lit "/x")) (-1) 0 (cstr (lit "a"))).1.open_fds
      = [1] ∧
    (mp_vfs_write ⟨true, true⟩ ⟨[], []⟩ (cstr (lit "/x")) 0 0 []).2 = Res.raise MP_EIO ∧
    (mp_vfs_write ⟨true, true⟩ ⟨[], []⟩ (cstr (lit "/x")) 0 0 []).1.open_fds = [1] ∧
    (mp_vfs_read ⟨true, true⟩ ⟨[(cstr (lit "/x"), cstr (lit "hello"))], []⟩
        (cstr (lit "/x")) (-1) 0 [0]).2.1 = Res.raise MP_EIO ∧
    (mp_vfs_read ⟨true, true⟩ ⟨[(cstr (lit "/x"), cstr (lit "hello"))], []⟩
        (cstr (lit "/x")) (-1) 0 [0]).1.open_fds = [1] ∧
    (mp_vfs_write ⟨true, true⟩ ⟨[], []⟩ (cstr (lit "/x")) 0 0 (cstr (lit "a"))).2
      = Res.ret () ∧
    (mp_vfs_write ⟨true, true⟩ ⟨[], []⟩ (cstr (lit "/x")) 0 0 (cstr (lit "a"))).1.open_fds
      = [] ∧
    (mp_vfs_read ⟨true, true⟩ ⟨[], []⟩ (cstr (lit "/x")) 0 0 [0]).2.1 = Res.raise MP_EIO ∧
    (mp_vfs_read ⟨true, true⟩ ⟨[], []⟩ (cstr (lit "/x")) 0 0 [0]).1.open_fds = [] := by
  decide

/-! ## C2, C9, C10: the cursor -/

theorem cstr_append_zero_left (s r : List Nat) : cstr (s ++ 0 :: r) = cstr s := by
  induction s with
  | nil => simp [cstr]
  | cons a t ih =>
    by_cases ha : a = 0
    · simp [cstr, ha]
    · simp [cstr, ha, ih]

theorem store_eq_some {b bs b1 : List Nat} {i : Nat} (h : store b i bs = some b1) :
    i + bs.length ≤ b.length ∧ b1 = b.take i ++ bs ++ b.drop (i + bs.length) := by
  unfold store at h
  split at h
  · cases h
    exact ⟨by assumption, rfl⟩
  · cases h

theorem cstr_store_zero {b b1 : List Nat} {i : Nat} (h : store b i [0] = some b1) :
    cstr b1 = (cstr b).take i := by
  obtain ⟨_, rfl⟩ := store_eq_some h
  rw [List.append_assoc, List.singleton_append, cstr_append_zero_left, cstr_take]

theorem cstr_getLast_eq_get {b : List Nat} (h0 : 0 ∈ b) :
    ((cstr b).length < 1 ∨ b.get? ((cstr b).length - 1) ≠ some 47) ↔
      (cstr b).getLast? ≠ some 47 := by
  obtain ⟨r, hr⟩ := cstr_decomp h0
  generalize cstr b = c at hr ⊢
  by_cases hnil : c = []
  · simp [hnil]
  · have hpos : 0 < c.length := List.length_pos.mpr hnil
    have hget : b.get? (c.length - 1) = c.getLast? := by
      rw [List.getLast?_eq_getElem?, List.get?_eq_getElem?, hr,
        List.getElem?_append_left (by omega)]
    rw [hget]
    constructor
    · rintro (h | h)
      · omega
      · exact h
    · intro h
      exact Or.inr h

theorem append_slash_if_missing_spec {b b1 : List Nat}
    (h : append_slash_if_missing b = some b1) : cstr b1 = slash (cstr b) := by
  unfold append_slash_if_missing at h
  cases hl : strlen b with
  | none => simp [hl] at h
  | some len =>
    obtain ⟨h0, hlen⟩ := strlen_eq_some.mp hl
    subst hlen
    simp only [hl] at h
    by_cases hc : (cstr b).length < 1 ∨ b.get? ((cstr b).length - 1) ≠ some 47
    · have hlast := (cstr_getLast_eq_get h0).mp hc
      simp only [hc, if_true] at h
      cases h3 : store b (cstr b).length [47] with
      | none => simp [h3] at h
      | some b3 =>
        simp only [h3] at h
        obtain ⟨_, hb3⟩ := store_eq_some h3
        obtain ⟨_, hb1⟩ := store_eq_some h
        have htake : b3.take ((cstr b).length + 1) = cstr b ++ [47] := by
          rw [hb3, take_strlen, List.append_assoc,
            List.take_append_eq_append_take]
          simp
        rw [hb1, htake]
        have : ∀ x ∈ cstr b ++ [47], x ≠ 0 := by
          intro x hx
          rcases List.mem_append.mp hx with hx | hx
          · exact cstr_ne_zero hx
          · simp at hx; omega
        rw [List.append_assoc, List.singleton_append, cstr_append_zero _ _ this]
        simp [slash, hlast]
    · have hlast : (cstr b).getLast? = some 47 := by
        by_contra hne
        exact hc ((cstr_getLast_eq_get h0).mpr hne)
      simp only [hc, if_false] at h
      cases h
      simp [slash, hlast]

theorem slash_getLast (s : List Nat) : (slash s).getLast? = some 47 := by
  unfold slash
  split
  · assumption
  · simp

theorem API_FS_ChangeDir_getLast {N : Nat} {buf path buf1 : List Nat}
    (h : API_FS_ChangeDir N buf path = some buf1) : (cstr buf1).getLast? = some 47 := by
  unfold API_FS_ChangeDir at h
  simp only at h
  split at h
  · cases h
  · split at h
    · cases h
    · rw [append_slash_if_missing_spec h]
      exact slash_getLast _

theorem cstr_replicate_zero_append (k : Nat) (r : List Nat) (hk : 0 < k) :
    cstr (List.replicate k 0 ++ r) = [] := by
  cases k with
  | zero => omega
  | succ k => simp [List.replicate_succ, cstr]

theorem strncpy_cstr {dst src b1 : List Nat} {n : Nat} (h : strncpy dst src n = some b1) :
    cstr b1 = if (cstr src).length < n then cstr src
              else (cstr src).take n ++ cstr (dst.drop n) := by
  unfold strncpy at h
  split at h
  · cases h
  · obtain ⟨hfit, hb1⟩ := store_eq_some h
    have hnz : ∀ x ∈ cstr (src.take n), x ≠ 0 := fun x hx => cstr_ne_zero hx
    have hlen : (cstr (src.take n)).length ≤ n := by
      rw [cstr_take, List.length_take]
      omega
    simp only [List.take_zero, List.nil_append, zero_add, List.length_append,
      List.length_replicate] at hb1
    rw [hb1, List.append_assoc, cstr_append_of_no_zero _ _ hnz]
    by_cases hlt : (cstr src).length < n
    · have htk : cstr (src.take n) = cstr src := by
        rw [cstr_take, List.take_of_length_le (by omega)]
      rw [htk, cstr_replicate_zero_append _ _ (by omega)]
      simp [hlt]
    · have hl2 : (cstr (src.take n)).length = n := by
        rw [cstr_take, List.length_take]
        omega
      rw [hl2]
      simp [hlt, cstr_take]

theorem strncat_cstr {dst src b1 : List Nat} {n : Nat} (h : strncat dst src n = some b1) :
    cstr b1 = cstr dst ++ (cstr src).take n := by
  unfold strncat at h
  cases hl : strlen dst with
  | none => simp [hl] at h
  | some l =>
    obtain ⟨h0, hlen⟩ := strlen_eq_some.mp hl
    subst hlen
    simp only [hl] at h
    split at h
    · cases h
    · have := cstr_store_str (by rw [take_strlen]; exact fun x hx => cstr_ne_zero hx)
        (fun x hx => cstr_ne_zero hx) h
      rw [this, take_strlen, cstr_take]

/-- The string left in `current_dir` by a call of `API_FS_ChangeDir` that stays inside its
objects, in terms of the strings and of the bytes of the array from index `N - 1` on. -/
theorem API_FS_ChangeDir_cstr {N : Nat} {buf path buf1 : List Nat}
    (h : API_FS_ChangeDir N buf path = some buf1) :
    cstr buf1 =
      if path.head? = some 47 then
        slash ((if (cstr path).length < toSizeT ((N : Int) - 1) then cstr path
          else (cstr path).take (toSizeT ((N : Int) - 1)) ++
            cstr (buf.drop (toSizeT ((N : Int) - 1)))).take N)
      else
        slash ((cstr buf ++ (cstr path).take
          (toSizeT ((N : Int) - ((cstr buf).length : Int) - 1))).take N) := by
  unfold API_FS_ChangeDir at h
  simp only at h
  by_cases hh : path.head? = some 47
  · simp only [hh, if_true] at h ⊢
    cases h1 : strncpy buf path (toSizeT ((N : Int) - 1)) with
    | none => simp [h1] at h
    | some b1 =>
      simp only [h1] at h
      cases h2 : store b1 N [0] with
      | none => simp [h2] at h
      | some b2 =>
        simp only [h2] at h
        rw [append_slash_if_missing_spec h, cstr_store_zero h2, strncpy_cstr h1]
  · simp only [hh, if_false] at h ⊢
    cases hl : strlen buf with
    | none => simp [hl] at h
    | some l =>
      obtain ⟨h0, hlen⟩ := strlen_eq_some.mp hl
      subst hlen
      simp only [hl] at h
      cases h1 : strncat buf path (toSizeT ((N : Int) - ((cstr buf).length : Int) - 1)) with
      | none => simp [h1] at h
      | some b1 =>
        simp only [h1] at h
        cases h2 : store b1 N [0] with
        | none => simp [h2] at h
        | some b2 =>
          simp only [h2] at h
          rw [append_slash_if_missing_spec h, cstr_store_zero h2, strncat_cstr h1]

theorem toSizeT_of_nonneg {i : Int} (h0 : 0 ≤ i) (h1 : i < 18446744073709551616) :
    toSizeT i = i.toNat := by
  unfold toSizeT
  omega

theorem ends_in_one_slash_slash (s : List Nat) (hne : s ≠ [])
    (hdd : ¬ [47, 47] <:+ s) : ends_in_one_slash (slash s) := by
  rcases List.eq_nil_or_concat s with h | ⟨q, a, rfl⟩
  · exact absurd h hne
  · simp only [List.concat_eq_append] at *
    by_cases ha : a = 47
    · subst ha
      have hs : slash (q ++ [47]) = q ++ [47] := by simp [slash]
      rw [hs]
      refine ⟨by simp, fun _ => ?_⟩
      rw [List.dropLast_concat]
      intro hq
      rcases List.eq_nil_or_concat q with h | ⟨q1, a1, rfl⟩
      · simp [h] at hq
      · simp only [List.concat_eq_append] at *
        simp at hq
        subst hq
        exact hdd ⟨q1, by simp⟩
    · have hs : slash (q ++ [a]) = q ++ [a] ++ [47] := by simp [slash, ha]
      rw [hs]
      refine ⟨by simp, fun _ => ?_⟩
      rw [List.dropLast_concat]
      simp [ha]

theorem not_double_slash_append (c p : List Nat) (hne : p ≠ []) (hh : p.head? ≠ some 47)
    (hdd : ¬ [47, 47] <:+ p) : ¬ [47, 47] <:+ c ++ p := by
  rcases List.eq_nil_or_concat p with h | ⟨q, a, rfl⟩
  · exact absurd h hne
  · simp only [List.concat_eq_append] at *
    rcases List.eq_nil_or_concat q with h | ⟨q1, a1, rfl⟩
    · subst h
      simp at hh
      rintro ⟨t, ht⟩
      have := congrArg List.getLast? ht
      simp at this
      exact hh this.symm
    · simp only [List.concat_eq_append] at *
      rintro ⟨t, ht⟩
      apply hdd
      have h2 : t ++ [47, 47] = (c ++ q1) ++ [a1, a] := by simpa using ht
      have h3 := List.append_inj' h2 (by simp)
      have h4 := h3.2
      simp only [List.cons.injEq, and_true] at h4
      obtain ⟨rfl, rfl⟩ := h4
      exact ⟨q1, by simp⟩

/-- C9 (amended). After a call of `API_FS_ChangeDir` that stays inside its objects the
cursor's last character is '/'; and it ends in exactly one '/' when the input is non-empty,
does not end in "//" and is copied without truncation (at most `N - 2` characters for an
input starting with '/', cursor plus input at most `N - 1` characters otherwise). -/
theorem API_FS_ChangeDir_trailing_slash (N : Nat) (buf path buf1 : List Nat)
    (hN : 1 ≤ N) (hN64 : N < 18446744073709551616) (hp : 0 ∈ path)
    (h : API_FS_ChangeDir N buf path = some buf1) :
    (cstr buf1).getLast? = some 47 ∧
    (cstr path ≠ [] → ¬ [47, 47] <:+ cstr path →
      (if (cstr path).head? = some 47 then (cstr path).length + 2 ≤ N
        else (cstr buf).length + (cstr path).length + 1 ≤ N) →
      ends_in_one_slash (cstr buf1)) := by
  refine ⟨API_FS_ChangeDir_getLast h, fun hne hdd hfit => ?_⟩
  have hhead : (cstr path).head? = some 47 ↔ path.head? = some 47 := by
    cases path with
    | nil => simp [cstr]
    | cons a t =>
      by_cases ha : a = 0
      · simp [cstr, ha]
      · simp [cstr, ha]
  have hsem := API_FS_ChangeDir_cstr h
  by_cases hh : path.head? = some 47
  · have hh1 := hhead.mpr hh
    simp only [hh1, if_true] at hfit
    have hn : toSizeT ((N : Int) - 1) = N - 1 := by
      rw [toSizeT_of_nonneg (by omega) (by omega)]
      omega
    have hlt : (cstr path).length < N - 1 := by omega
    simp only [hh, if_true, hn, hlt] at hsem
    rw [List.take_of_length_le (by omega)] at hsem
    rw [hsem]
    exact ends_in_one_slash_slash _ hne hdd
  · have hh1 : ¬ (cstr path).head? = some 47 := fun hc => hh (hhead.mp hc)
    simp only [hh1, if_false] at hfit
    have hn : toSizeT ((N : Int) - ((cstr buf).length : Int) - 1) = N - (cstr buf).length - 1 := by
      rw [toSizeT_of_nonneg (by omega) (by omega)]
      omega
    simp only [hh, if_false, hn] at hsem
    have ht : (cstr path).take (N - (cstr buf).length - 1) = cstr path :=
      List.take_of_length_le (by omega)
    rw [ht, List.take_of_length_le (by simp; omega)] at hsem
    rw [hsem]
    exact ends_in_one_slash_slash _ (by simp [hne])
      (not_double_slash_append _ _ hne hh1 hdd)

/-- Instance of `API_FS_ChangeDir_trailing_slash`: `N = 32`, initial cursor "/", input "a". -/
theorem API_FS_ChangeDir_trailing_slash_witness :
    (cstr (lit "/a/" ++ List.replicate 29 0)).getLast? = some 47 ∧
    ends_in_one_slash (cstr (lit "/a/" ++ List.replicate 29 0)) :=
  ⟨(API_FS_ChangeDir_trailing_slash 32 (current_dir_init 32) (lit "a")
      (lit "/a/" ++ List.replicate 29 0) (by decide) (by decide) (by decide) (by decide)).1,
   (API_FS_ChangeDir_trailing_slash 32 (current_dir_init 32) (lit "a")
      (lit "/a/" ++ List.replicate 29 0) (by decide) (by decide) (by decide) (by decide)).2
      (by decide) (by decide) (by decide)⟩

/-- C9 (counterexample). With `N = 32`, from the initial cursor "/" the call
`API_FS_ChangeDir("a//")` leaves the cursor "/a//": the character before the final '/' is
again '/', so the cursor does not end in exactly one '/'. -/
theorem API_FS_ChangeDir_keeps_double_slash :
    (API_FS_ChangeDir 32 (current_dir_init 32) (lit "a//")).map cstr
      = some (cstr (lit "/a//")) ∧
    ¬ ends_in_one_slash (cstr (lit "/a//")) := by
  refine ⟨by decide, fun h => ?_⟩
  exact h.2 (by decide) (by decide)

/-- A relative, non-empty input given to a cursor of length `N` makes `strncat`'s count
`N - strlen(current_dir) - 1` wrap around in `size_t`: the whole input and its NUL are
stored from index `N` on, past the end of the array of `N + 1` bytes. -/
theorem API_FS_ChangeDir_overflow (N : Nat) (buf path : List Nat)
    (hlen : buf.length = N + 1) (h0 : 0 ∈ buf)
    (hfull : (cstr buf).length = N) (hrel : path.head? ≠ some 47)
    (hne : cstr path ≠ []) :
    API_FS_ChangeDir N buf path = none := by
  have hn : toSizeT ((N : Int) - (N : Int) - 1) = 18446744073709551615 := by
    unfold toSizeT
    omega
  have hpl : 0 < (cstr path).length := List.length_pos.mpr hne
  have hl : 1 ≤ (cstr (path.take 18446744073709551615)).length := by
    rw [cstr_take, List.length_take]
    omega
  have hst : store buf N (cstr (path.take 18446744073709551615) ++ [0]) = none := by
    unfold store
    rw [if_neg]
    rw [List.length_append, hlen]
    simp only [List.length_singleton]
    omega
  have hcat : strncat buf path 18446744073709551615 = none := by
    unfold strncat
    simp only [strlen_of_mem h0, hfull, hst]
    split <;> rfl
  unfold API_FS_ChangeDir
  simp only [if_neg hrel, strlen_of_mem h0, hfull, hn, hcat]

/-- C2 (defect). With `N = 32`: from the initial cursor "/" (which `API_FS_InitDir` also
restores), `API_FS_ChangeDir` with 30
characters 'a' stays inside the array and leaves a cursor of 32 characters; the next call
`API_FS_ChangeDir("x")` stores outside the 33-byte array. -/
theorem API_FS_ChangeDir_leaves_array :
    API_FS_InitDir (current_dir_init 32) = some (current_dir_init 32) ∧
    (chdirs 32 (current_dir_init 32) [List.replicate 30 97 ++ [0]]).map cstr
      = some (47 :: List.replicate 30 97 ++ [47]) ∧
    chdirs 32 (current_dir_init 32) [List.replicate 30 97 ++ [0], lit "x"] = none := by
  decide

/-- C10 (defect). With `N = 32`, the input `s` = "/" ++ 29 × 'b' ++ "/" (31 characters):
from the initial array the call leaves the cursor `s`, as the reference does; after the
earlier calls with 30 × 'a' and then "/a" the cursor is "/a/" in both arrays compared
here, but byte 31 of the array still holds the '/' of the 32-character cursor, `strncpy`
writes no NUL, and the call leaves `s ++ "/"`, which is not what the reference gives. -/
theorem API_FS_ChangeDir_reads_stale_byte :
    (chdirs 32 (current_dir_init 32) [lit "/a"]).map cstr = some (cstr (lit "/a/")) ∧
    (chdirs 32 (current_dir_init 32) [List.replicate 30 97 ++ [0], lit "/a"]).map cstr
      = some (cstr (lit "/a/")) ∧
    (chdirs 32 (current_dir_init 32)
        [lit "/a", 47 :: List.replicate 29 98 ++ [47, 0]]).map cstr
      = some (47 :: List.replicate 29 98 ++ [47]) ∧
    (chdirs 32 (current_dir_init 32)
        [List.replicate 30 97 ++ [0], lit "/a", 47 :: List.replicate 29 98 ++ [47, 0]]).map cstr
      = some (47 :: List.replicate 29 98 ++ [47, 47]) ∧
    change_ref 32 (cstr (lit "/a/")) (47 :: List.replicate 29 98 ++ [47])
      = 47 :: List.replicate 29 98 ++ [47] := by
  decide

theorem strncpy_length {dst src b1 : List Nat} {n : Nat} (h : strncpy dst src n = some b1) :
    b1.length = dst.length := by
  unfold strncpy at h
  split at h
  · cases h
  · exact store_length h

theorem strncat_length {dst src b1 : List Nat} {n : Nat} (h : strncat dst src n = some b1) :
    b1.length = dst.length := by
  unfold strncat at h
  split at h
  · cases h
  · split at h
    · cases h
    · exact store_length h

theorem append_slash_if_missing_length {b b1 : List Nat}
    (h : append_slash_if_missing b = some b1) : b1.length = b.length ∧ 0 ∈ b1 := by
  unfold append_slash_if_missing at h
  cases hl : strlen b with
  | none => simp [hl] at h
  | some len =>
    obtain ⟨h0, _⟩ := strlen_eq_some.mp hl
    simp only [hl] at h
    split at h
    · cases h3 : store b len [47] with
      | none => simp [h3] at h
      | some b3 =>
        simp only [h3] at h
        refine ⟨by rw [store_length h, store_length h3], ?_⟩
        obtain ⟨_, hb1⟩ := store_eq_some h
        rw [hb1]
        simp
    · cases h
      exact ⟨rfl, h0⟩

theorem slash_head (s : List Nat) (h : s.head? = some 47) : (slash s).head? = some 47 := by
  unfold slash
  split
  · exact h
  · cases s with
    | nil => simp at h
    | cons a t => simpa using h

theorem head_take (s : List Nat) (n : Nat) (hn : 1 ≤ n) (h : s.head? = some 47) :
    (s.take n).head? = some 47 := by
  cases s with
  | nil => simp at h
  | cons a t =>
    cases n with
    | zero => omega
    | succ m => simpa using h

theorem head_cstr_of_head {p : List Nat} (h : p.head? = some 47) :
    (cstr p).head? = some 47 := by
  cases p with
  | nil => simp at h
  | cons a t =>
    simp at h
    subst h
    simp [cstr]

/-- A call of `API_FS_ChangeDir` that stays inside its objects preserves the cursor
invariant. -/
theorem API_FS_ChangeDir_inv (N : Nat) (buf path buf1 : List Nat) (hN : 2 ≤ N)
    (hN64 : N < 18446744073709551616) (hinv : cursor_inv N buf)
    (h : API_FS_ChangeDir N buf path = some buf1) : cursor_inv N buf1 := by
  obtain ⟨hlen, h0, hhd, _⟩ := hinv
  have hsem := API_FS_ChangeDir_cstr h
  have hlast := API_FS_ChangeDir_getLast h
  have hn : toSizeT ((N : Int) - 1) = N - 1 := by
    rw [toSizeT_of_nonneg (by omega) (by omega)]
    omega
  have hshape : buf1.length = N + 1 ∧ 0 ∈ buf1 := by
    unfold API_FS_ChangeDir at h
    simp only at h
    split at h
    · cases h
    · rename_i b1 hcopy
      split at h
      · cases h
      · rename_i b2 hb2
        obtain ⟨hl, hz⟩ := append_slash_if_missing_length h
        refine ⟨?_, hz⟩
        rw [hl, store_length hb2]
        split at hcopy
        · rw [strncpy_length hcopy, hlen]
        · split at hcopy
          · cases hcopy
          · rw [strncat_length hcopy, hlen]
  refine ⟨hshape.1, hshape.2, ?_, hlast⟩
  rw [hsem]
  by_cases hh : path.head? = some 47
  · simp only [hh, if_true, hn]
    apply slash_head
    apply head_take _ _ (by omega)
    split
    · exact head_cstr_of_head hh
    · rw [List.head?_append_of_ne_nil]
      · exact head_take _ _ (by omega) (head_cstr_of_head hh)
      · intro hnil
        have := head_take _ (N - 1) (by omega) (head_cstr_of_head hh)
        rw [hnil] at this
        simp at this
  · simp only [hh, if_false]
    apply slash_head
    apply head_take _ _ (by omega)
    rw [List.head?_append_of_ne_nil]
    · exact hhd
    · intro hnil
      rw [hnil] at hhd
      simp at hhd

/-- Every array state reached from the initial one by calls of `API_FS_ChangeDir` that all
stay inside their objects satisfies the cursor invariant, and its string has at most `N`
characters. -/
theorem chdirs_inv (N : Nat) (ps : List (List Nat)) (buf buf1 : List Nat) (hN : 2 ≤ N)
    (hN64 : N < 18446744073709551616) (hinv : cursor_inv N buf)
    (h : chdirs N buf ps = some buf1) : cursor_inv N buf1 ∧ (cstr buf1).length ≤ N := by
  induction ps generalizing buf with
  | nil =>
    simp only [chdirs, Option.some.injEq] at h
    subst h
    have := cstr_length_lt hinv.2.1
    exact ⟨hinv, by rw [hinv.1] at this; omega⟩
  | cons p ps ih =>
    unfold chdirs at h
    cases h1 : API_FS_ChangeDir N buf p with
    | none => simp [h1] at h
    | some b1 =>
      simp only [h1] at h
      exact ih b1 (API_FS_ChangeDir_inv N buf p b1 hN hN64 hinv h1) h

theorem cursor_inv_init (N : Nat) (hN : 1 ≤ N) : cursor_inv N (current_dir_init N) := by
  obtain ⟨k, rfl⟩ : ∃ k, N = k + 1 := ⟨N - 1, by omega⟩
  refine ⟨by simp [current_dir_init], ?_, ?_, ?_⟩ <;>
    simp [current_dir_init, cstr, List.replicate_succ]

end MaixPy
